import Mathlib

/-!
Shallow embedding of the MF Compass sync service scoring core
(`ScoringUtils` in the scoring module, the category-averages blending in
`seed.js` / `update.js`, and the eligibility filter `applyAdvancedFilters`
in `seed.js`), together with proofs checking the specification's claims.

JavaScript numbers are modelled by `ℚ`; a field of a JS record is modelled
by `JsVal` (null/undefined, a numeric value, or a present but unparseable
value), matching the guards `v !== null && v !== undefined && !isNaN(v)`
used throughout the source.
-/

namespace MFCompass

/-- A JavaScript field value as it reaches the scoring code: `null` or
`undefined`, a numeric (or numerically parseable) value, or a value that is
present but non-numeric, i.e. one for which `isNaN` is true. -/
inductive JsVal where
  | vNull : JsVal
  | vNum : ℚ → JsVal
  | vBad : JsVal
deriving DecidableEq

/-- Numeric content of a field: `some q` exactly when the JS guard
`v !== null && v !== undefined && !isNaN(v)` passes, in which case
`parseFloat(v) = q`. -/
def JsVal.toNum? : JsVal → Option ℚ
  | .vNum q => some q
  | _ => none

/-- The four return periods carried by fund records and category averages
in the scoring module. -/
inductive Period where
  | p1y | p3y | p5y | p1w
deriving DecidableEq

/-- The fixed base-weight table `this.baseWeights` of `ScoringUtils`. -/
def baseWeight : Period → ℚ
  | .p1y => 3499/10000
  | .p3y => 3999/10000
  | .p5y => 2499/10000
  | .p1w => 3/10000

/-- Fund data consumed by `calculateRawScore`. -/
structure FundData where
  returns_1y : JsVal
  returns_3y : JsVal
  returns_5y : JsVal
  returns_1w : JsVal
  fund_category : Option String
  fund_type : Option String
deriving DecidableEq

/-- Period accessor for fund data. -/
def FundData.ret (fd : FundData) : Period → JsVal
  | .p1y => fd.returns_1y
  | .p3y => fd.returns_3y
  | .p5y => fd.returns_5y
  | .p1w => fd.returns_1w

/-- One category-averages record, as looked up by `calculateRawScore`. -/
structure CatAvg where
  returns_1y : JsVal
  returns_3y : JsVal
  returns_5y : JsVal
  returns_1w : JsVal
deriving DecidableEq

/-- Period accessor for a category-averages record. -/
def CatAvg.ret (ca : CatAvg) : Period → JsVal
  | .p1y => ca.returns_1y
  | .p3y => ca.returns_3y
  | .p5y => ca.returns_5y
  | .p1w => ca.returns_1w

/-- The inner helper `robustOutperformance(fund, cat)` of
`calculateRawScore`: returns 0 for a null/NaN category value, otherwise
`(fund - cat) / max(abs(cat), 1)`, multiplied by the penalty factor 1.5
when the fund value is negative. -/
def robustOutperformance (fund : ℚ) (cat : JsVal) : ℚ :=
  match cat with
  | .vNum c =>
      let denom := max |c| 1
      let outperf := (fund - c) / denom
      if fund < 0 then outperf * (3/2) else outperf
  | _ => 0

/-- The JS object `categoryAverages` is modelled as an association list;
`categoryAverages[categoryName]` becomes a lookup, returning `none` when
the fund's category is absent (including a null category name). -/
def lookupCat (cas : List (String × CatAvg)) : Option String → Option CatAvg
  | some name => (cas.find? (fun kv => kv.1 == name)).map (fun kv => kv.2)
  | none => none

/-- One guarded accumulation step of `calculateRawScore` (outperformance
mode): when both the fund value and the category value for period `p` pass
the null/NaN guards, the period's base weight is added to
`totalAvailableWeight` and its outperformance is appended to
`outperformanceReturns`. -/
def addPeriod (fd : FundData) (categoryAvg : CatAvg)
    (acc : ℚ × List (Period × ℚ)) (p : Period) : ℚ × List (Period × ℚ) :=
  match ((fd.ret p).toNum?), ((categoryAvg.ret p).toNum?) with
  | some f, some c =>
      (acc.1 + baseWeight p, acc.2 ++ [(p, robustOutperformance f (.vNum c))])
  | _, _ => acc

/-- One guarded accumulation step of `calculateAbsoluteReturnsScore`
(absolute mode): when the fund value passes the null/NaN guard, the
period's base weight is added and the raw value is appended. -/
def addAbsPeriod (fd : FundData)
    (acc : ℚ × List (Period × ℚ)) (p : Period) : ℚ × List (Period × ℚ) :=
  match ((fd.ret p).toNum?) with
  | some f => (acc.1 + baseWeight p, acc.2 ++ [(p, f)])
  | none => acc

/-- The four periods in the order the source checks them. -/
def allPeriods : List Period := [.p1y, .p3y, .p5y, .p1w]

/-- The final loop of both scoring functions:
`totalScore += value * (baseWeights[key] / totalAvailableWeight)` over the
accumulated entries, in insertion order. -/
def sumContrib (totalAvailableWeight : ℚ) (entries : List (Period × ℚ)) : ℚ :=
  entries.foldl (fun totalScore kv =>
    totalScore + kv.2 * (baseWeight kv.1 / totalAvailableWeight)) 0

/-- `calculateAbsoluteReturnsScore(fundData)`: the fallback weighted score
over the fund's own returns. -/
def calculateAbsoluteReturnsScore (fundData : FundData) : ℚ :=
  let res := allPeriods.foldl (addAbsPeriod fundData) (0, [])
  if res.1 = 0 then 0 else sumContrib res.1 res.2

/-- `calculateRawScore(fundData, categoryAverages)`: outperformance mode
when averages are provided and an entry exists for the fund's category,
otherwise the absolute-returns fallback. -/
def calculateRawScore (fundData : FundData)
    (categoryAverages : Option (List (String × CatAvg))) : ℚ :=
  match categoryAverages with
  | none => calculateAbsoluteReturnsScore fundData
  | some cas =>
    match lookupCat cas fundData.fund_category with
    | none => calculateAbsoluteReturnsScore fundData
    | some categoryAvg =>
      let res := allPeriods.foldl (addPeriod fundData categoryAvg) (0, [])
      if res.1 = 0 then 0 else sumContrib res.1 res.2

/-- Specification-side notion: the category-averages record actually used
by the Calculator for this fund (present exactly in outperformance mode). -/
def effectiveCatAvg (fd : FundData)
    (categoryAverages : Option (List (String × CatAvg))) : Option CatAvg :=
  categoryAverages.bind (fun cas => lookupCat cas fd.fund_category)

/-- Specification-side notion: a period is usable when the values required
by the active mode are present and numeric. -/
def usable (fd : FundData) (ca : Option CatAvg) (p : Period) : Bool :=
  ((fd.ret p).toNum?).isSome &&
    (match ca with
     | some c => ((c.ret p).toNum?).isSome
     | none => true)

/-- Specification-side notion: the value contributed by a period — the
outperformance transform in outperformance mode, the raw return otherwise. -/
def periodValue (fd : FundData) (ca : Option CatAvg) (p : Period) : ℚ :=
  match ca with
  | some c => robustOutperformance (((fd.ret p).toNum?).getD 0) (c.ret p)
  | none => ((fd.ret p).toNum?).getD 0

/-- Specification-side notion: the sum of the base weights of the usable
periods. -/
def totalAvailableWeight (fd : FundData) (ca : Option CatAvg) : ℚ :=
  ((allPeriods.filter (usable fd ca)).map baseWeight).sum

/-- Specification-side raw score: 0 when no period is usable, otherwise
the weighted sum over usable periods with weights renormalized by the
total available weight. -/
def specRawScore (fd : FundData)
    (cam : Option (List (String × CatAvg))) : ℚ :=
  if totalAvailableWeight fd (effectiveCatAvg fd cam) = 0 then 0
  else ((allPeriods.filter (usable fd (effectiveCatAvg fd cam))).map
    (fun p => periodValue fd (effectiveCatAvg fd cam) p * baseWeight p /
      totalAvailableWeight fd (effectiveCatAvg fd cam))).sum

/-- A value with numeric content is literally a numeric value. -/
lemma JsVal.eq_vNum_of_toNum? {v : JsVal} {q : ℚ} (h : v.toNum? = some q) :
    v = .vNum q := by
  cases v <;> simp [JsVal.toNum?] at h <;> simp [h]

/-- The outperformance-mode accumulation step, rewritten through the
specification-side `usable` / `periodValue`. -/
lemma addPeriod_eq (fd : FundData) (ca : CatAvg)
    (acc : ℚ × List (Period × ℚ)) (p : Period) :
    addPeriod fd ca acc p =
      if usable fd (some ca) p then
        (acc.1 + baseWeight p, acc.2 ++ [(p, periodValue fd (some ca) p)])
      else acc := by
  cases h1 : fd.ret p <;> cases h2 : ca.ret p <;>
    simp [addPeriod, usable, periodValue, h1, h2, JsVal.toNum?]

/-- The absolute-mode accumulation step, rewritten through the
specification-side `usable` / `periodValue`. -/
lemma addAbsPeriod_eq (fd : FundData)
    (acc : ℚ × List (Period × ℚ)) (p : Period) :
    addAbsPeriod fd acc p =
      if usable fd none p then
        (acc.1 + baseWeight p, acc.2 ++ [(p, periodValue fd none p)])
      else acc := by
  cases h1 : fd.ret p <;>
    simp [addAbsPeriod, usable, periodValue, h1, JsVal.toNum?]

/-- Folding any guarded accumulation step produces the total weight of the
usable periods together with the list of usable periods paired with their
values. -/
lemma foldl_guarded (u : Period → Bool) (v : Period → ℚ)
    (s : ℚ × List (Period × ℚ) → Period → ℚ × List (Period × ℚ))
    (hs : ∀ acc p, s acc p =
      if u p then (acc.1 + baseWeight p, acc.2 ++ [(p, v p)]) else acc)
    (ps : List Period) (acc : ℚ × List (Period × ℚ)) :
    ps.foldl s acc =
      (acc.1 + ((ps.filter u).map baseWeight).sum,
       acc.2 ++ (ps.filter u).map (fun p => (p, v p))) := by
  induction ps generalizing acc with
  | nil => simp
  | cons p ps ih =>
    rw [List.foldl_cons, hs]
    by_cases hp : u p
    · rw [if_pos hp, ih]
      simp [hp, add_assoc]
    · rw [if_neg hp, ih]
      simp [hp]

/-- The final accumulation loop is a sum over the entries. -/
lemma sumContrib_eq (W : ℚ) (l : List (Period × ℚ)) :
    sumContrib W l = (l.map (fun kv => kv.2 * (baseWeight kv.1 / W))).sum := by
  unfold sumContrib
  have key : ∀ (l : List (Period × ℚ)) (a : ℚ),
      l.foldl (fun totalScore kv =>
        totalScore + kv.2 * (baseWeight kv.1 / W)) a =
      a + (l.map (fun kv => kv.2 * (baseWeight kv.1 / W))).sum := by
    intro l
    induction l with
    | nil => intro a; simp
    | cons kv l ih => intro a; simp [ih, add_assoc]
  simpa using key l 0

/-- The absolute-returns fallback agrees with the specification-side
formula in absolute mode. -/
lemma calculateAbsoluteReturnsScore_eq (fd : FundData) :
    calculateAbsoluteReturnsScore fd =
      if totalAvailableWeight fd none = 0 then 0
      else ((allPeriods.filter (usable fd none)).map
        (fun p => periodValue fd none p * baseWeight p /
          totalAvailableWeight fd none)).sum := by
  unfold calculateAbsoluteReturnsScore
  rw [foldl_guarded (usable fd none) (periodValue fd none) _
    (addAbsPeriod_eq fd) allPeriods (0, [])]
  simp only [zero_add, List.nil_append]
  rw [show ((allPeriods.filter (usable fd none)).map baseWeight).sum =
      totalAvailableWeight fd none from rfl]
  by_cases h : totalAvailableWeight fd none = 0
  · rw [if_pos h, if_pos h]
  · rw [if_neg h, if_neg h, sumContrib_eq, List.map_map]
    congr 1
    apply List.map_congr_left
    intro p _
    simp [Function.comp, mul_div_assoc]

/-- The Calculator refines the specification-side raw-score formula. -/
lemma rawScore_eq_spec (fd : FundData)
    (cam : Option (List (String × CatAvg))) :
    calculateRawScore fd cam = specRawScore fd cam := by
  unfold calculateRawScore specRawScore effectiveCatAvg
  cases cam with
  | none =>
    simpa [Option.bind] using calculateAbsoluteReturnsScore_eq fd
  | some cas =>
    cases hca : lookupCat cas fd.fund_category with
    | none =>
      simpa [Option.bind, hca] using calculateAbsoluteReturnsScore_eq fd
    | some categoryAvg =>
      simp only [Option.bind, hca]
      rw [foldl_guarded (usable fd (some categoryAvg))
        (periodValue fd (some categoryAvg)) _
        (addPeriod_eq fd categoryAvg) allPeriods (0, [])]
      simp only [zero_add, List.nil_append]
      rw [show ((allPeriods.filter (usable fd (some categoryAvg))).map
        baseWeight).sum = totalAvailableWeight fd (some categoryAvg) from rfl]
      by_cases h : totalAvailableWeight fd (some categoryAvg) = 0
      · rw [if_pos h, if_pos h]
      · rw [if_neg h, if_neg h, sumContrib_eq, List.map_map]
        congr 1
        apply List.map_congr_left
        intro p _
        simp [Function.comp, mul_div_assoc]

/-- Updating one return field of a fund record, used to state claims about
malformed period values. -/
def FundData.setRet (fd : FundData) (p : Period) (v : JsVal) : FundData :=
  match p with
  | .p1y => { fd with returns_1y := v }
  | .p3y => { fd with returns_3y := v }
  | .p5y => { fd with returns_5y := v }
  | .p1w => { fd with returns_1w := v }

/-- Scoring a batch of funds, as the orchestration loops do: one raw score
per fund record, independent computations. -/
def scoreBatch (fds : List FundData)
    (cam : Option (List (String × CatAvg))) : List ℚ :=
  fds.map (fun fd => calculateRawScore fd cam)

/-- The specification-side score depends on a fund record only through its
category name and the numeric content of its period values. -/
lemma specRawScore_congr (fd1 fd2 : FundData)
    (cam : Option (List (String × CatAvg)))
    (hcat : fd1.fund_category = fd2.fund_category)
    (hret : ∀ p, (fd1.ret p).toNum? = (fd2.ret p).toNum?) :
    specRawScore fd1 cam = specRawScore fd2 cam := by
  have hca : effectiveCatAvg fd1 cam = effectiveCatAvg fd2 cam := by
    unfold effectiveCatAvg
    rw [hcat]
  have hu : usable fd1 (effectiveCatAvg fd2 cam) =
      usable fd2 (effectiveCatAvg fd2 cam) := by
    funext p
    unfold usable
    rw [hret]
  have hv : periodValue fd1 (effectiveCatAvg fd2 cam) =
      periodValue fd2 (effectiveCatAvg fd2 cam) := by
    funext p
    unfold periodValue
    cases effectiveCatAvg fd2 cam <;> rw [hret]
  unfold specRawScore totalAvailableWeight
  rw [hca, hu, hv]

/-- C1. The Calculator's raw score is 0 when no period is usable
(`totalAvailableWeight = 0`) and otherwise equals the sum over usable
periods of `value * baseWeight p / totalAvailableWeight`, where the value
is the outperformance transform when a category-averages entry exists for
the fund's category and the raw period return otherwise, a period being
usable exactly when the values required by the active mode are present and
numeric. -/
theorem calculateRawScore_spec (fd : FundData)
    (cam : Option (List (String × CatAvg))) :
    calculateRawScore fd cam =
      if totalAvailableWeight fd (effectiveCatAvg fd cam) = 0 then 0
      else ((allPeriods.filter (usable fd (effectiveCatAvg fd cam))).map
        (fun p => periodValue fd (effectiveCatAvg fd cam) p * baseWeight p /
          totalAvailableWeight fd (effectiveCatAvg fd cam))).sum := by
  simpa [specRawScore] using rawScore_eq_spec fd cam

/-- C2. The per-period outperformance equals `(f - c) / max(abs c, 1)`
multiplied by 1.5 exactly when `f < 0`; in particular `f = -5, c = 2`
yields `-5.25` and `f = 10, c = 4` yields `1.5`. -/
theorem robustOutperformance_spec :
    (∀ f c : ℚ, robustOutperformance f (.vNum c) =
      (if f < 0 then (3 : ℚ)/2 else 1) * ((f - c) / max |c| 1)) ∧
    robustOutperformance (-5) (.vNum 2) = -(21/4) ∧
    robustOutperformance 10 (.vNum 4) = 3/2 := by
  refine ⟨fun f c => ?_, by norm_num [robustOutperformance],
    by norm_num [robustOutperformance]⟩
  unfold robustOutperformance
  by_cases hf : f < 0 <;> simp [hf] <;> ring

/-- C8. A period value that is present but non-numeric is treated exactly
as an absent one by the Calculator (excluded from the weighted sum and its
weight from the denominator), and a batch maps each fund to its own score,
so a malformed record never affects the scores of its peers. -/
theorem malformedValue_as_absent (fd : FundData) (p : Period)
    (cam : Option (List (String × CatAvg))) (fs gs : List FundData) :
    calculateRawScore (fd.setRet p .vBad) cam =
      calculateRawScore (fd.setRet p .vNull) cam ∧
    scoreBatch (fs ++ fd.setRet p .vBad :: gs) cam =
      scoreBatch fs cam ++
        calculateRawScore (fd.setRet p .vBad) cam :: scoreBatch gs cam := by
  constructor
  · rw [rawScore_eq_spec, rawScore_eq_spec]
    apply specRawScore_congr
    · cases p <;> rfl
    · intro q
      cases p <;> cases q <;> rfl
  · simp [scoreBatch]

/-- A scored fund row as read back for `normalizeFundScores`: identity,
classification and the raw `total_score` (possibly SQL `NULL`). -/
structure Fund where
  kuvera_code : String
  fund_type : Option String
  fund_category : Option String
  total_score : Option ℚ
deriving DecidableEq

/-- JS `a || d` on a string field: `null`, `undefined` and the empty
string are falsy and select the default. -/
def jsStringOr (o : Option String) (d : String) : String :=
  match o with
  | some s => if s = "" then d else s
  | none => d

/-- Whether the first character list starts the second one. -/
def startsList : List Char → List Char → Bool
  | [], _ => true
  | _ :: _, [] => false
  | a :: as, b :: bs => a == b && startsList as bs

/-- JS `hay.includes(needle)`: contiguous-substring containment. -/
def includesSeq : List Char → List Char → Bool
  | needle, [] => needle.isEmpty
  | needle, b :: bs => startsList needle (b :: bs) || includesSeq needle bs

/-- The guard `fund.fund_type && fund.fund_type.toLowerCase().includes('equity')`. -/
def isEquityType (o : Option String) : Bool :=
  match o with
  | some t => includesSeq ("equity".toList) (t.toLower.toList)
  | none => false

/-- The grouping key used by `normalizeFundScores` (both branches read
`fund_category`, with different fallback buckets). -/
def categoryKey (f : Fund) : String :=
  if isEquityType f.fund_type then jsStringOr f.fund_category "equity_other"
  else jsStringOr f.fund_category "unknown"

/-- JS numeric coercion of a possibly-null score, as performed by
`Math.max`, `Math.min` and arithmetic: `Number(null) = 0`. -/
def jsNum (s : Option ℚ) : ℚ := s.getD 0

/-- `Math.max(...xs)` over a nonempty list. -/
def listMax : List ℚ → ℚ
  | [] => 0
  | x :: xs => xs.foldl max x

/-- `Math.min(...xs)` over a nonempty list. -/
def listMin : List ℚ → ℚ
  | [] => 0
  | x :: xs => xs.foldl min x

/-- `Math.round(q * 100) / 100`, the 2-decimal rounding used throughout
the scoring module (JS `Math.round` rounds half towards positive
infinity, as does Mathlib's `round`). -/
def round2 (q : ℚ) : ℚ := ((round (q * 100) : ℤ) : ℚ) / 100

/-- The per-fund normalized value given the group's min and max: the two
degenerate cases, then linear 50-100 rescaling. -/
def normValue (minScore maxScore s : ℚ) : ℚ :=
  if maxScore ≤ 0 then 50
  else if maxScore = minScore then 100
  else round2 ((s - minScore) / (maxScore - minScore) * 50 + 50)

/-- The peer group of a fund inside a batch: all funds sharing its
grouping key (every fund is in its own group). -/
def groupOf (funds : List Fund) (f : Fund) : List Fund :=
  funds.filter (fun g => categoryKey g == categoryKey f)

/-- The coerced raw scores of a fund's peer group. -/
def groupScores (funds : List Fund) (f : Fund) : List ℚ :=
  (groupOf funds f).map (fun g => jsNum g.total_score)

/-- The in-place update `normalizeFundScores` performs on one fund: its
group's min/max are computed from the raw scores, then its score is
replaced. -/
def normFund (funds : List Fund) (f : Fund) : Fund :=
  { f with total_score := some (normValue (listMin (groupScores funds f))
      (listMax (groupScores funds f)) (jsNum f.total_score)) }

/-- `normalizeFundScores(fundsWithScores)`: every fund's score is replaced
by its group-normalized value; the returned array is the input array. -/
def normalizeFundScores (funds : List Fund) : List Fund :=
  funds.map (normFund funds)

/-- Folding `max` only grows the accumulator. -/
lemma le_foldl_max (l : List ℚ) (a : ℚ) : a ≤ l.foldl max a := by
  induction l generalizing a with
  | nil => simp
  | cons x xs ih => exact le_trans (le_max_left a x) (ih (max a x))

/-- Every member of the list is bounded by the `max` fold. -/
lemma mem_le_foldl_max {b : ℚ} {l : List ℚ} (hb : b ∈ l) (a : ℚ) :
    b ≤ l.foldl max a := by
  induction l generalizing a with
  | nil => cases hb
  | cons x xs ih =>
    rcases List.mem_cons.mp hb with rfl | hmem
    · exact le_trans (le_max_right a b) (le_foldl_max xs (max a b))
    · exact ih hmem (max a x)

/-- The `max` fold returns its seed or a member of the list. -/
lemma foldl_max_mem (l : List ℚ) (a : ℚ) :
    l.foldl max a = a ∨ l.foldl max a ∈ l := by
  induction l generalizing a with
  | nil => left; rfl
  | cons x xs ih =>
    rcases ih (max a x) with h | h
    · rcases max_choice a x with hm | hm
      · left; rw [List.foldl_cons, h, hm]
      · right; rw [List.foldl_cons, h, hm]; exact List.mem_cons_self x xs
    · right; exact List.mem_cons_of_mem x h

/-- `listMax` bounds every member. -/
lemma le_listMax {b : ℚ} {l : List ℚ} (hb : b ∈ l) : b ≤ listMax l := by
  cases l with
  | nil => cases hb
  | cons x xs =>
    rcases List.mem_cons.mp hb with rfl | hmem
    · exact le_foldl_max xs b
    · exact mem_le_foldl_max hmem x

/-- `listMax` of a nonempty list is one of its members. -/
lemma listMax_mem {l : List ℚ} (h : l ≠ []) : listMax l ∈ l := by
  cases l with
  | nil => exact absurd rfl h
  | cons x xs =>
    rcases foldl_max_mem xs x with hx | hx
    · rw [listMax, hx]; exact List.mem_cons_self x xs
    · exact List.mem_cons_of_mem x hx

/-- Folding `min` only shrinks the accumulator. -/
lemma foldl_min_le (l : List ℚ) (a : ℚ) : l.foldl min a ≤ a := by
  induction l generalizing a with
  | nil => simp
  | cons x xs ih => exact le_trans (ih (min a x)) (min_le_left a x)

/-- The `min` fold is below every member of the list. -/
lemma foldl_min_le_mem {b : ℚ} {l : List ℚ} (hb : b ∈ l) (a : ℚ) :
    l.foldl min a ≤ b := by
  induction l generalizing a with
  | nil => cases hb
  | cons x xs ih =>
    rcases List.mem_cons.mp hb with rfl | hmem
    · exact le_trans (foldl_min_le xs (min a b)) (min_le_right a b)
    · exact ih hmem (min a x)

/-- The `min` fold returns its seed or a member of the list. -/
lemma foldl_min_mem (l : List ℚ) (a : ℚ) :
    l.foldl min a = a ∨ l.foldl min a ∈ l := by
  induction l generalizing a with
  | nil => left; rfl
  | cons x xs ih =>
    rcases ih (min a x) with h | h
    · rcases min_choice a x with hm | hm
      · left; rw [List.foldl_cons, h, hm]
      · right; rw [List.foldl_cons, h, hm]; exact List.mem_cons_self x xs
    · right; exact List.mem_cons_of_mem x h

/-- `listMin` is below every member. -/
lemma listMin_le {b : ℚ} {l : List ℚ} (hb : b ∈ l) : listMin l ≤ b := by
  cases l with
  | nil => cases hb
  | cons x xs =>
    rcases List.mem_cons.mp hb with rfl | hmem
    · exact foldl_min_le xs b
    · exact foldl_min_le_mem hmem x

/-- `listMin` of a nonempty list is one of its members. -/
lemma listMin_mem {l : List ℚ} (h : l ≠ []) : listMin l ∈ l := by
  cases l with
  | nil => exact absurd rfl h
  | cons x xs =>
    rcases foldl_min_mem xs x with hx | hx
    · rw [listMin, hx]; exact List.mem_cons_self x xs
    · exact List.mem_cons_of_mem x hx

/-- A monotone map commutes with the `max` fold. -/
lemma foldl_max_map (φ : ℚ → ℚ) (hφ : Monotone φ) (l : List ℚ) (a : ℚ) :
    (l.map φ).foldl max (φ a) = φ (l.foldl max a) := by
  induction l generalizing a with
  | nil => rfl
  | cons x xs ih =>
    rw [List.map_cons, List.foldl_cons, List.foldl_cons, ← hφ.map_max, ih]

/-- A monotone map commutes with `listMax` on nonempty lists. -/
lemma listMax_map (φ : ℚ → ℚ) (hφ : Monotone φ) {l : List ℚ} (h : l ≠ []) :
    listMax (l.map φ) = φ (listMax l) := by
  cases l with
  | nil => exact absurd rfl h
  | cons x xs => exact foldl_max_map φ hφ xs x

/-- A monotone map commutes with the `min` fold. -/
lemma foldl_min_map (φ : ℚ → ℚ) (hφ : Monotone φ) (l : List ℚ) (a : ℚ) :
    (l.map φ).foldl min (φ a) = φ (l.foldl min a) := by
  induction l generalizing a with
  | nil => rfl
  | cons x xs ih =>
    rw [List.map_cons, List.foldl_cons, List.foldl_cons, ← hφ.map_min, ih]

/-- A monotone map commutes with `listMin` on nonempty lists. -/
lemma listMin_map (φ : ℚ → ℚ) (hφ : Monotone φ) {l : List ℚ} (h : l ≠ []) :
    listMin (l.map φ) = φ (listMin l) := by
  cases l with
  | nil => exact absurd rfl h
  | cons x xs => exact foldl_min_map φ hφ xs x

/-- Two-decimal rounding is monotone. -/
lemma round2_monotone : Monotone round2 := by
  intro a b hab
  unfold round2
  have h : round (a * 100) ≤ round (b * 100) := by
    rw [round_eq, round_eq]
    exact Int.floor_le_floor (by linarith)
  have h100 : (0 : ℚ) < 100 := by norm_num
  exact (div_le_div_iff_of_pos_right h100).mpr (by exact_mod_cast h)

/-- Two-decimal rounding fixes integer multiples of 1/100. -/
lemma round2_intDiv (k : ℤ) : round2 ((k : ℚ) / 100) = (k : ℚ) / 100 := by
  unfold round2
  rw [div_mul_cancel₀ _ (by norm_num : (100 : ℚ) ≠ 0), round_intCast]

/-- Two-decimal rounding is idempotent. -/
lemma round2_idem (q : ℚ) : round2 (round2 q) = round2 q :=
  round2_intDiv (round (q * 100))

/-- Rounding a value that is at least 50 stays at least 50. -/
lemma round2_ge_50 {q : ℚ} (h : 50 ≤ q) : 50 ≤ round2 q := by
  have h50 : round2 50 = 50 := by
    have := round2_intDiv 5000
    norm_num at this
    simpa using this
  calc (50 : ℚ) = round2 50 := h50.symm
    _ ≤ round2 q := round2_monotone h

/-- Rounding a value that is at most 100 stays at most 100. -/
lemma round2_le_100 {q : ℚ} (h : q ≤ 100) : round2 q ≤ 100 := by
  have h100 : round2 100 = 100 := by
    have := round2_intDiv 10000
    norm_num at this
    simpa using this
  calc round2 q ≤ round2 100 := round2_monotone h
    _ = 100 := h100

/-- Every fund belongs to its own peer group. -/
lemma self_mem_groupOf {funds : List Fund} {f : Fund} (hf : f ∈ funds) :
    f ∈ groupOf funds f :=
  List.mem_filter.mpr ⟨hf, by simp⟩

/-- A fund's coerced score appears among its group's scores. -/
lemma jsNum_mem_groupScores {funds : List Fund} {f : Fund} (hf : f ∈ funds) :
    jsNum f.total_score ∈ groupScores funds f :=
  List.mem_map_of_mem _ (self_mem_groupOf hf)

/-- A fund's group-score list is nonempty. -/
lemma groupScores_ne_nil {funds : List Fund} {f : Fund} (hf : f ∈ funds) :
    groupScores funds f ≠ [] :=
  List.ne_nil_of_mem (jsNum_mem_groupScores hf)

/-- Degenerate case A of the per-fund update: non-positive group maximum. -/
lemma normFund_caseA {funds : List Fund} {f : Fund}
    (h : listMax (groupScores funds f) ≤ 0) :
    normFund funds f = { f with total_score := some 50 } := by
  unfold normFund normValue
  rw [if_pos h]

/-- Degenerate case B of the per-fund update: positive maximum, all tied. -/
lemma normFund_caseB {funds : List Fund} {f : Fund}
    (h1 : 0 < listMax (groupScores funds f))
    (h2 : listMax (groupScores funds f) = listMin (groupScores funds f)) :
    normFund funds f = { f with total_score := some 100 } := by
  unfold normFund normValue
  rw [if_neg (not_le.mpr h1), if_pos h2]

/-- Standard case of the per-fund update: linear 50-100 rescaling. -/
lemma normFund_std {funds : List Fund} {f : Fund}
    (h1 : 0 < listMax (groupScores funds f))
    (h2 : listMax (groupScores funds f) ≠ listMin (groupScores funds f)) :
    normFund funds f = { f with total_score := some (round2
      ((jsNum f.total_score - listMin (groupScores funds f)) /
        (listMax (groupScores funds f) - listMin (groupScores funds f)) *
          50 + 50)) } := by
  unfold normFund normValue
  rw [if_neg (not_le.mpr h1), if_neg h2]

/-- C3. In a non-degenerate group (positive maximum, not all tied) each
fund is assigned `round2(((raw - min) / (max - min)) * 50 + 50)`, and this
final score lies within `[50, 100]`. -/
theorem normalize_standard_case (funds : List Fund) (f : Fund)
    (hf : f ∈ funds)
    (hmax : 0 < listMax (groupScores funds f))
    (hne : listMax (groupScores funds f) ≠ listMin (groupScores funds f)) :
    { f with total_score := some (round2
      ((jsNum f.total_score - listMin (groupScores funds f)) /
        (listMax (groupScores funds f) - listMin (groupScores funds f)) *
          50 + 50)) } ∈ normalizeFundScores funds ∧
    50 ≤ round2 ((jsNum f.total_score - listMin (groupScores funds f)) /
      (listMax (groupScores funds f) - listMin (groupScores funds f)) *
        50 + 50) ∧
    round2 ((jsNum f.total_score - listMin (groupScores funds f)) /
      (listMax (groupScores funds f) - listMin (groupScores funds f)) *
        50 + 50) ≤ 100 := by
  have hs := jsNum_mem_groupScores hf
  have hsM : jsNum f.total_score ≤ listMax (groupScores funds f) :=
    le_listMax hs
  have hms : listMin (groupScores funds f) ≤ jsNum f.total_score :=
    listMin_le hs
  have hmM : listMin (groupScores funds f) < listMax (groupScores funds f) :=
    lt_of_le_of_ne (le_trans hms hsM) (Ne.symm hne)
  refine ⟨?_, ?_, ?_⟩
  · have := List.mem_map_of_mem (normFund funds) hf
    rwa [normFund_std hmax hne] at this
  · apply round2_ge_50
    have hquot : 0 ≤ (jsNum f.total_score - listMin (groupScores funds f)) /
        (listMax (groupScores funds f) - listMin (groupScores funds f)) :=
      div_nonneg (by linarith) (by linarith)
    nlinarith
  · apply round2_le_100
    have hquot : (jsNum f.total_score - listMin (groupScores funds f)) /
        (listMax (groupScores funds f) - listMin (groupScores funds f)) ≤ 1 :=
      (div_le_one (by linarith)).mpr (by linarith)
    nlinarith

/-- C3 witness: a two-fund group with raw scores 0 and 10; the second fund
is mapped to `round2(((10 - 0) / (10 - 0)) * 50 + 50)` and that value lies
in `[50, 100]`. -/
theorem normalize_standard_case_witness :
    { kuvera_code := "B", fund_type := none, fund_category := some "X",
      total_score := some (round2 ((jsNum (some (10 : ℚ)) -
        listMin (groupScores
          [⟨"A", none, some "X", some 0⟩, ⟨"B", none, some "X", some 10⟩]
          ⟨"B", none, some "X", some 10⟩)) /
        (listMax (groupScores
          [⟨"A", none, some "X", some 0⟩, ⟨"B", none, some "X", some 10⟩]
          ⟨"B", none, some "X", some 10⟩) -
         listMin (groupScores
          [⟨"A", none, some "X", some 0⟩, ⟨"B", none, some "X", some 10⟩]
          ⟨"B", none, some "X", some 10⟩)) * 50 + 50)) : Fund } ∈
      normalizeFundScores
        [⟨"A", none, some "X", some 0⟩, ⟨"B", none, some "X", some 10⟩] := by
  have h := normalize_standard_case
    [⟨"A", none, some "X", some 0⟩, ⟨"B", none, some "X", some 10⟩]
    ⟨"B", none, some "X", some 10⟩
    (by norm_num)
    (by norm_num [groupScores, groupOf, categoryKey, isEquityType,
      jsStringOr, jsNum, listMax])
    (by norm_num [groupScores, groupOf, categoryKey, isEquityType,
      jsStringOr, jsNum, listMax, listMin])
  exact h.1

/-- C4. Degenerate cases of the Normalizer: a group whose maximum raw
score is non-positive has every fund assigned 50; otherwise a fully tied
group has every fund assigned 100. -/
theorem normalize_degenerate_cases (funds : List Fund) (f : Fund)
    (hf : f ∈ funds) :
    (listMax (groupScores funds f) ≤ 0 →
      { f with total_score := some 50 } ∈ normalizeFundScores funds) ∧
    (0 < listMax (groupScores funds f) →
      listMax (groupScores funds f) = listMin (groupScores funds f) →
      { f with total_score := some 100 } ∈ normalizeFundScores funds) := by
  constructor
  · intro h
    have := List.mem_map_of_mem (normFund funds) hf
    rwa [normFund_caseA h] at this
  · intro h1 h2
    have := List.mem_map_of_mem (normFund funds) hf
    rwa [normFund_caseB h1 h2] at this

/-- C4 witness: the group with raw scores `[-2, -1, 0]` maps its funds to
50, and the group with raw scores `[3, 3, 3]` maps its funds to 100. -/
theorem normalize_degenerate_cases_witness :
    ({ kuvera_code := "A", fund_type := none, fund_category := some "X",
        total_score := some 50 : Fund } ∈ normalizeFundScores
      [⟨"A", none, some "X", some (-2)⟩, ⟨"B", none, some "X", some (-1)⟩,
       ⟨"C", none, some "X", some 0⟩]) ∧
    ({ kuvera_code := "D", fund_type := none, fund_category := some "Y",
        total_score := some 100 : Fund } ∈ normalizeFundScores
      [⟨"D", none, some "Y", some 3⟩, ⟨"E", none, some "Y", some 3⟩,
       ⟨"F", none, some "Y", some 3⟩]) := by
  constructor
  · exact (normalize_degenerate_cases
      [⟨"A", none, some "X", some (-2)⟩, ⟨"B", none, some "X", some (-1)⟩,
       ⟨"C", none, some "X", some 0⟩]
      ⟨"A", none, some "X", some (-2)⟩ (by norm_num)).1
      (by norm_num [groupScores, groupOf, categoryKey, isEquityType,
        jsStringOr, jsNum, listMax])
  · exact (normalize_degenerate_cases
      [⟨"D", none, some "Y", some 3⟩, ⟨"E", none, some "Y", some 3⟩,
       ⟨"F", none, some "Y", some 3⟩]
      ⟨"D", none, some "Y", some 3⟩ (by norm_num)).2
      (by norm_num [groupScores, groupOf, categoryKey, isEquityType,
        jsStringOr, jsNum, listMax])
      (by norm_num [groupScores, groupOf, categoryKey, isEquityType,
        jsStringOr, jsNum, listMax, listMin])

/-- C7 counterexample: a group consisting of one fund whose raw score is
null is not excluded from the Normalizer's output; `Math.max` coerces the
null to 0, degenerate case A fires, and the fund comes back with final
score 50 — absence is not preserved. -/
theorem normalize_null_group_counterexample :
    normalizeFundScores [⟨"F1", none, some "Large Cap Fund", none⟩] =
      [⟨"F1", none, some "Large Cap Fund", some 50⟩] := by
  norm_num [normalizeFundScores, normFund, groupScores, groupOf,
    categoryKey, isEquityType, jsStringOr, jsNum, listMax, listMin,
    normValue]

/-- C7 amended. A peer group all of whose raw scores are null is kept in
the output: every null is coerced to 0, so the group maximum is 0,
degenerate case A applies, and every fund of the group is assigned final
score 50. -/
theorem normalize_null_group (funds : List Fund) (f : Fund)
    (hf : f ∈ funds)
    (hnull : ∀ g ∈ groupOf funds f, g.total_score = none) :
    { f with total_score := some 50 } ∈ normalizeFundScores funds := by
  have hzero : ∀ x ∈ groupScores funds f, x = 0 := by
    intro x hx
    rcases List.mem_map.mp hx with ⟨g, hg, rfl⟩
    rw [hnull g hg]
    rfl
  have hmax : listMax (groupScores funds f) ≤ 0 :=
    le_of_eq (hzero _ (listMax_mem (groupScores_ne_nil hf)))
  have := List.mem_map_of_mem (normFund funds) hf
  rwa [normFund_caseA hmax] at this

/-- C7 amended witness: a two-fund all-null group comes back with both
scores set to 50. -/
theorem normalize_null_group_witness :
    { kuvera_code := "F1", fund_type := none,
      fund_category := some "Large Cap Fund",
      total_score := some 50 : Fund } ∈ normalizeFundScores
      [⟨"F1", none, some "Large Cap Fund", none⟩,
       ⟨"F2", none, some "Large Cap Fund", none⟩] :=
  normalize_null_group
    [⟨"F1", none, some "Large Cap Fund", none⟩,
     ⟨"F2", none, some "Large Cap Fund", none⟩]
    ⟨"F1", none, some "Large Cap Fund", none⟩
    (by norm_num)
    (by intro g hg
        simp only [groupOf, categoryKey, isEquityType, jsStringOr,
          List.filter, List.mem_cons] at hg
        revert hg
        norm_num
        rintro (rfl | rfl) <;> rfl)

/-- Lists related pointwise to their image under a map. -/
lemma forall₂_map_self {α : Type} (R : α → α → Prop) (g : α → α)
    (hg : ∀ a, R a (g a)) (l : List α) : List.Forall₂ R l (l.map g) := by
  induction l with
  | nil => exact List.Forall₂.nil
  | cons a l ih => exact List.Forall₂.cons (hg a) ih

/-- C9. The Normalizer returns one output fund per input fund, in order,
and changes no field other than `total_score`. -/
theorem normalize_frame (funds : List Fund) :
    (normalizeFundScores funds).length = funds.length ∧
    List.Forall₂ (fun f g => g.kuvera_code = f.kuvera_code ∧
        g.fund_type = f.fund_type ∧ g.fund_category = f.fund_category)
      funds (normalizeFundScores funds) :=
  ⟨List.length_map funds (normFund funds),
   forall₂_map_self _ (normFund funds) (fun _ => ⟨rfl, rfl, rfl⟩) funds⟩

/-- The per-fund update leaves the grouping key unchanged. -/
lemma categoryKey_normFund (funds : List Fund) (f : Fund) :
    categoryKey (normFund funds f) = categoryKey f := rfl

/-- Two-decimal rounding fixes 50. -/
lemma round2_50 : round2 50 = 50 := by
  have h := round2_intDiv 5000
  norm_num at h
  simpa using h

/-- Two-decimal rounding fixes 100. -/
lemma round2_100 : round2 100 = 100 := by
  have h := round2_intDiv 10000
  norm_num at h
  simpa using h

/-- Members of a fund's group share its grouping key. -/
lemma key_eq_of_mem_groupOf {fs : List Fund} {f g : Fund}
    (hg : g ∈ groupOf fs f) : categoryKey g = categoryKey f :=
  eq_of_beq (List.mem_filter.mp hg).2

/-- Funds with the same grouping key see the same group scores. -/
lemma groupScores_congr {fs : List Fund} {f g : Fund}
    (h : categoryKey g = categoryKey f) :
    groupScores fs g = groupScores fs f := by
  unfold groupScores groupOf
  rw [h]

/-- Filtering the image of a map. -/
lemma filter_map_eq {α β : Type} (p : β → Bool) (g : α → β) (l : List α) :
    (l.map g).filter p = (l.filter (fun a => p (g a))).map g := by
  induction l with
  | nil => rfl
  | cons a l ih =>
    by_cases hp : p (g a) <;> simp [hp, ih]

/-- The group of a normalized fund inside the normalized batch is the
image of its original group. -/
lemma groupOf_normalize (fs : List Fund) (f : Fund) :
    groupOf (normalizeFundScores fs) (normFund fs f) =
      (groupOf fs f).map (normFund fs) := by
  unfold groupOf normalizeFundScores
  rw [filter_map_eq]
  rfl

/-- The group scores of a normalized fund inside the normalized batch are
the original group scores mapped through the group's `normValue`. -/
lemma groupScores_normalize (fs : List Fund) (f : Fund) :
    groupScores (normalizeFundScores fs) (normFund fs f) =
      (groupScores fs f).map (fun x =>
        normValue (listMin (groupScores fs f))
          (listMax (groupScores fs f)) x) := by
  unfold groupScores
  rw [groupOf_normalize, List.map_map]
  have hstep : ∀ g ∈ groupOf fs f,
      jsNum (normFund fs g).total_score =
        normValue (listMin (groupScores fs f))
          (listMax (groupScores fs f)) (jsNum g.total_score) := by
    intro g hg
    have hkey := key_eq_of_mem_groupOf hg
    show jsNum (some (normValue (listMin (groupScores fs g))
      (listMax (groupScores fs g)) (jsNum g.total_score))) = _
    rw [groupScores_congr hkey]
    rfl
  calc (groupOf fs f).map (fun g => jsNum (normFund fs g).total_score)
      = (groupOf fs f).map (fun g =>
          normValue (listMin (groupScores fs f))
            (listMax (groupScores fs f)) (jsNum g.total_score)) :=
        List.map_congr_left hstep
    _ = ((groupOf fs f).map (fun g => jsNum g.total_score)).map
          (fun x => normValue (listMin (groupScores fs f))
            (listMax (groupScores fs f)) x) := by
        rw [List.map_map]
        rfl
    _ = (groupScores fs f).map (fun x =>
          normValue (listMin (groupScores fs f))
            (listMax (groupScores fs f)) x) := rfl

/-- Re-normalizing a fund whose group had a positive maximum reproduces
its normalized score. -/
lemma normFund_normalize (fs : List Fund) (f : Fund) (hf : f ∈ fs)
    (hM : 0 < listMax (groupScores fs f)) :
    normFund (normalizeFundScores fs) (normFund fs f) = normFund fs f := by
  have hne := groupScores_ne_nil hf
  by_cases hMm : listMax (groupScores fs f) = listMin (groupScores fs f)
  · -- degenerate case B: everyone is set to 100, which re-normalizes to 100
    have hconst : ∀ x, normValue (listMin (groupScores fs f))
        (listMax (groupScores fs f)) x = 100 := by
      intro x
      unfold normValue
      rw [if_neg (not_le.mpr hM), if_pos hMm]
    have hscores := groupScores_normalize fs f
    have hmax : listMax (groupScores (normalizeFundScores fs)
        (normFund fs f)) = 100 := by
      rw [hscores]
      have : (groupScores fs f).map (fun x =>
          normValue (listMin (groupScores fs f))
            (listMax (groupScores fs f)) x) =
          (groupScores fs f).map (fun _ => (100 : ℚ)) :=
        List.map_congr_left (fun x _ => hconst x)
      rw [this, listMax_map (fun _ => (100 : ℚ)) monotone_const hne]
    have hmin : listMin (groupScores (normalizeFundScores fs)
        (normFund fs f)) = 100 := by
      rw [hscores]
      have : (groupScores fs f).map (fun x =>
          normValue (listMin (groupScores fs f))
            (listMax (groupScores fs f)) x) =
          (groupScores fs f).map (fun _ => (100 : ℚ)) :=
        List.map_congr_left (fun x _ => hconst x)
      rw [this, listMin_map (fun _ => (100 : ℚ)) monotone_const hne]
    have hjs : jsNum (normFund fs f).total_score =
        normValue (listMin (groupScores fs f))
          (listMax (groupScores fs f)) (jsNum f.total_score) := rfl
    have hVv : normValue
        (listMin (groupScores (normalizeFundScores fs) (normFund fs f)))
        (listMax (groupScores (normalizeFundScores fs) (normFund fs f)))
        (jsNum (normFund fs f).total_score) =
        normValue (listMin (groupScores fs f))
          (listMax (groupScores fs f)) (jsNum f.total_score) := by
      rw [hmax, hmin, hjs, hconst]
      unfold normValue
      norm_num
    exact congrArg (fun t => ({ f with total_score := some t } : Fund)) hVv
  · -- standard case: min maps to 50, max to 100, and the rescaling from
    -- [50, 100] onto [50, 100] fixes every rounded score
    have hmM : listMin (groupScores fs f) < listMax (groupScores fs f) := by
      rcases lt_or_le (listMin (groupScores fs f))
          (listMax (groupScores fs f)) with h | h
      · exact h
      · exact absurd (le_antisymm h (listMin_le
          (listMax_mem hne))) hMm
    have hdiff : (0 : ℚ) < listMax (groupScores fs f) -
        listMin (groupScores fs f) := by linarith
    set m := listMin (groupScores fs f) with hm
    set M := listMax (groupScores fs f) with hMdef
    have hval : ∀ x, normValue m M x =
        round2 ((x - m) / (M - m) * 50 + 50) := by
      intro x
      unfold normValue
      rw [if_neg (not_le.mpr hM), if_neg hMm]
    have hmono : Monotone (fun x : ℚ =>
        round2 ((x - m) / (M - m) * 50 + 50)) := by
      intro a b hab
      apply round2_monotone
      have hdiv : (a - m) / (M - m) ≤ (b - m) / (M - m) :=
        (div_le_div_iff_of_pos_right hdiff).mpr (by linarith)
      nlinarith
    have hscores := groupScores_normalize fs f
    have hφM : round2 ((M - m) / (M - m) * 50 + 50) = 100 := by
      rw [div_self (ne_of_gt hdiff)]
      norm_num [round2_100]
    have hφm : round2 ((m - m) / (M - m) * 50 + 50) = 50 := by
      norm_num [round2_50]
    have hmax : listMax (groupScores (normalizeFundScores fs)
        (normFund fs f)) = 100 := by
      rw [hscores]
      have : (groupScores fs f).map (fun x => normValue m M x) =
          (groupScores fs f).map (fun x =>
            round2 ((x - m) / (M - m) * 50 + 50)) :=
        List.map_congr_left (fun x _ => hval x)
      rw [this, listMax_map _ hmono hne]
      exact hφM
    have hmin : listMin (groupScores (normalizeFundScores fs)
        (normFund fs f)) = 50 := by
      rw [hscores]
      have : (groupScores fs f).map (fun x => normValue m M x) =
          (groupScores fs f).map (fun x =>
            round2 ((x - m) / (M - m) * 50 + 50)) :=
        List.map_congr_left (fun x _ => hval x)
      rw [this, listMin_map _ hmono hne]
      exact hφm
    have hjs : jsNum (normFund fs f).total_score =
        normValue m M (jsNum f.total_score) := rfl
    have hVv : normValue
        (listMin (groupScores (normalizeFundScores fs) (normFund fs f)))
        (listMax (groupScores (normalizeFundScores fs) (normFund fs f)))
        (jsNum (normFund fs f).total_score) =
        normValue m M (jsNum f.total_score) := by
      rw [hmax, hmin, hjs, hval (jsNum f.total_score)]
      unfold normValue
      rw [if_neg (by norm_num : ¬ (100 : ℚ) ≤ 0),
        if_neg (by norm_num : (100 : ℚ) ≠ 50)]
      have harith : (round2 ((jsNum f.total_score - m) / (M - m) * 50 + 50)
          - 50) / (100 - 50) * 50 + 50 =
          round2 ((jsNum f.total_score - m) / (M - m) * 50 + 50) := by
        field_simp
        ring
      rw [harith, round2_idem]
    exact congrArg (fun t => ({ f with total_score := some t } : Fund)) hVv

/-- C5 counterexample: idempotence fails. A single fund with raw score 0
forms a group with `maxScore = 0`, so the first pass assigns 50
(degenerate case A); the second pass sees the all-tied group `[50]` with
positive maximum and assigns 100 (degenerate case B). -/
theorem normalize_not_idempotent :
    normalizeFundScores (normalizeFundScores
      [⟨"A", none, some "X", some 0⟩]) ≠
      normalizeFundScores [⟨"A", none, some "X", some 0⟩] := by
  norm_num [normalizeFundScores, normFund, groupScores, groupOf,
    categoryKey, isEquityType, jsStringOr, jsNum, listMax, listMin,
    normValue]

/-- C5 amended. The Normalizer is idempotent on every batch in which no
peer group falls into degenerate case A, i.e. every group's maximum raw
score is positive; re-running it on its own output then reproduces that
output exactly. -/
theorem normalize_idem (fs : List Fund)
    (h : ∀ f ∈ fs, 0 < listMax (groupScores fs f)) :
    normalizeFundScores (normalizeFundScores fs) =
      normalizeFundScores fs := by
  have hsplit : normalizeFundScores (normalizeFundScores fs) =
      fs.map (fun f => normFund (normalizeFundScores fs) (normFund fs f)) := by
    show (fs.map (normFund fs)).map (normFund (normalizeFundScores fs)) = _
    rw [List.map_map]
    rfl
  rw [hsplit]
  exact List.map_congr_left
    (fun f hf => normFund_normalize fs f hf (h f hf))

/-- C5 amended witness: a two-fund group with raw scores 1 and 3 has a
positive maximum, and normalizing twice equals normalizing once. -/
theorem normalize_idem_witness :
    normalizeFundScores (normalizeFundScores
      [⟨"A", none, some "X", some 1⟩, ⟨"B", none, some "X", some 3⟩]) =
      normalizeFundScores
        [⟨"A", none, some "X", some 1⟩, ⟨"B", none, some "X", some 3⟩] :=
  normalize_idem
    [⟨"A", none, some "X", some 1⟩, ⟨"B", none, some "X", some 3⟩]
    (by norm_num [groupScores, groupOf, categoryKey, isEquityType,
      jsStringOr, jsNum, listMax])

/-- A raw per-category averages record as fetched from the external
source, with the five period fields used by the hybrid blending code. -/
structure RawCategory where
  category_name : String
  report_date : String
  week_1 : JsVal
  year_1 : JsVal
  year_3 : JsVal
  year_5 : JsVal
  inception : JsVal
deriving DecidableEq

/-- A processed category record as prepared for storage; the hybrid
record's period fields are initialized to 0 and hold plain numbers. -/
structure ProcessedCategory where
  category_name : String
  report_date : String
  returns_1w : ℚ
  returns_1y : ℚ
  returns_3y : ℚ
  returns_5y : ℚ
  returns_inception : ℚ
deriving DecidableEq

/-- The five hybrid-blend periods. -/
inductive HPeriod where
  | w1 | y1 | y3 | y5 | inc
deriving DecidableEq

/-- Period accessor on a raw category record. -/
def RawCategory.hret (c : RawCategory) : HPeriod → JsVal
  | .w1 => c.week_1
  | .y1 => c.year_1
  | .y3 => c.year_3
  | .y5 => c.year_5
  | .inc => c.inception

/-- Period accessor on a processed category record. -/
def ProcessedCategory.hret (c : ProcessedCategory) : HPeriod → ℚ
  | .w1 => c.returns_1w
  | .y1 => c.returns_1y
  | .y3 => c.returns_3y
  | .y5 => c.returns_5y
  | .inc => c.returns_inception

/-- One period of the hybrid averaging loop: keep the values passing the
null/NaN filter; leave the initial 0 when none remain, else overwrite with
their arithmetic mean. -/
def avgValidValues (vs : List JsVal) : ℚ :=
  let validValues := vs.filterMap JsVal.toNum?
  if validValues.length = 0 then 0
  else validValues.sum / validValues.length

/-- The hybrid-blending block of `processCategoryAverages` (`seed.js`) and
`updateCategoryAverages` (`update.js`): produced only when the hybrid
group is nonempty, named `"Hybrid"`, dated from the first member, each
period averaged over the values that pass the null/NaN filter. -/
def hybridAverage : List RawCategory → Option ProcessedCategory
  | [] => none
  | c0 :: rest =>
    some {
      category_name := "Hybrid",
      report_date := c0.report_date,
      returns_1w := avgValidValues ((c0 :: rest).map (fun c => c.week_1)),
      returns_1y := avgValidValues ((c0 :: rest).map (fun c => c.year_1)),
      returns_3y := avgValidValues ((c0 :: rest).map (fun c => c.year_3)),
      returns_5y := avgValidValues ((c0 :: rest).map (fun c => c.year_5)),
      returns_inception :=
        avgValidValues ((c0 :: rest).map (fun c => c.inception)) }

/-- Specification-side per-period mean: absent (omitted) when zero raw
categories report the period, else the mean of the reported values. -/
def specPeriodMean (vs : List JsVal) : Option ℚ :=
  let valid := vs.filterMap JsVal.toNum?
  if valid.length = 0 then none
  else some (valid.sum / valid.length)

/-- The blended field agrees with the specification-side mean whenever at
least one category reports the period, and is the initial 0 otherwise. -/
lemma avgValidValues_eq_specPeriodMean (vs : List JsVal) :
    avgValidValues vs = (specPeriodMean vs).getD 0 := by
  unfold avgValidValues specPeriodMean
  by_cases h : (vs.filterMap JsVal.toNum?).length = 0 <;> simp [h]

/-- The accessors of the blended record are the blended field values. -/
lemma hybridAverage_hret (c0 : RawCategory) (rest : List RawCategory)
    (p : HPeriod) :
    (hybridAverage (c0 :: rest)).map (fun pc => pc.hret p) =
      some (avgValidValues
        ((c0 :: rest).map (fun c => c.hret p))) := by
  cases p <;> rfl

/-- C6 counterexample: a hybrid group whose single member reports `null`
for the 1-week period produces a blended record that still carries the
value 0 for that period (the initialized field is stored), whereas the
claim requires the period to be omitted (the specification-side mean is
`none`). -/
theorem hybridAverage_zero_counterexample :
    (hybridAverage [⟨"Aggressive Hybrid Fund", "2025-06-30", .vNull,
        .vNum 12, .vNum 10, .vNum 9, .vNum 11⟩]).map
      (fun pc => pc.returns_1w) = some 0 ∧
    specPeriodMean [JsVal.vNull] = none := by
  constructor
  · norm_num [hybridAverage, avgValidValues, JsVal.toNum?, List.filterMap]
  · norm_num [specPeriodMean, JsVal.toNum?, List.filterMap]

/-- C6 amended. For a nonempty hybrid group the Aggregator produces one
synthetic category named `"Hybrid"`, dated from the first member, whose
value for each period is the arithmetic mean of the numeric per-period
values across the raw categories — null/absent/non-numeric values are
excluded from both the sum and the count — except that a period reported
by zero raw categories is stored as the initial value 0 rather than
omitted; raw per-period values `[10, null, 20]` blend to 15. -/
theorem hybridAverage_spec (c0 : RawCategory) (rest : List RawCategory)
    (p : HPeriod) :
    (∃ pc : ProcessedCategory, hybridAverage (c0 :: rest) = some pc ∧
      pc.category_name = "Hybrid" ∧
      pc.report_date = c0.report_date ∧
      pc.hret p = (specPeriodMean
        ((c0 :: rest).map (fun c => c.hret p))).getD 0) ∧
    hybridAverage [] = none ∧
    avgValidValues [JsVal.vNum 10, JsVal.vNull, JsVal.vNum 20] = 15 := by
  refine ⟨⟨_, rfl, rfl, rfl, ?_⟩, rfl, ?_⟩
  · rw [← avgValidValues_eq_specPeriodMean]
    cases p <;> rfl
  · norm_num [avgValidValues, JsVal.toNum?, List.filterMap]

/-- A fund-details record as seen by `applyAdvancedFilters` in `seed.js`;
all fields may be absent. -/
structure FundDetail where
  lump_available : Option String
  sip_available : Option String
  direct : Option String
  plan : Option String
  maturity_type : Option String
  fund_rating : Option ℚ
  aum : Option ℚ
  name : Option String
  code : Option String
deriving DecidableEq

/-- JS truthiness of a string field: `null`/`undefined` and `""` are falsy. -/
def jsTruthyStr : Option String → Bool
  | some s => !(s == "")
  | none => false

/-- JS truthiness of a numeric field: `null`/`undefined` and 0 are falsy. -/
def jsTruthyNum : Option ℚ → Bool
  | some q => !(q == 0)
  | none => false

/-- Rejection: neither `lump_available === 'Y'` nor `sip_available === 'Y'`. -/
def rejAvailability (f : FundDetail) : Bool :=
  !(f.lump_available == some "Y") && !(f.sip_available == some "Y")

/-- Rejection: `fund.direct !== 'Y'`. -/
def rejFundType (f : FundDetail) : Bool :=
  !(f.direct == some "Y")

/-- Rejection: `fund.plan !== 'GROWTH'`. -/
def rejPlanType (f : FundDetail) : Bool :=
  !(f.plan == some "GROWTH")

/-- Rejection: `fund.maturity_type !== 'Open Ended'`. -/
def rejMaturity (f : FundDetail) : Bool :=
  !(f.maturity_type == some "Open Ended")

/-- Rejection: `fund.fund_rating && [1, 2].includes(fund.fund_rating)`. -/
def rejRating (f : FundDetail) : Bool :=
  jsTruthyNum f.fund_rating &&
    ((f.fund_rating.getD 0 == 1) || (f.fund_rating.getD 0 == 2))

/-- Rejection: `fund.aum && (fund.aum / 10) < 10`. -/
def rejAum (f : FundDetail) : Bool :=
  jsTruthyNum f.aum && decide (f.aum.getD 0 / 10 < 10)

/-- Rejection: `!fund.name || !fund.code`. -/
def rejIntegrity (f : FundDetail) : Bool :=
  !(jsTruthyStr f.name) || !(jsTruthyStr f.code)

/-- Rejection: `fund.name && fund.name.toLowerCase().includes('nifty')`. -/
def rejIndexFund (f : FundDetail) : Bool :=
  jsTruthyStr f.name &&
    includesSeq ("nifty".toList) (((f.name.getD "").toLower).toList)

/-- The per-predicate rejection tallies and pass count (`filterStats`). -/
structure FilterStats where
  availability : ℕ
  fundType : ℕ
  planType : ℕ
  maturity : ℕ
  rating : ℕ
  aum : ℕ
  dataIntegrity : ℕ
  indexFund : ℕ
  passed : ℕ
deriving DecidableEq

/-- `applyAdvancedFilters(fundDetails)`: each fund is checked against the
rejection predicates in source order; the first failing predicate gets the
tally and processing continues with the next fund; funds failing nothing
are kept in order and counted as passed. -/
def applyAdvancedFilters : List FundDetail → List FundDetail × FilterStats
  | [] => ([], ⟨0, 0, 0, 0, 0, 0, 0, 0, 0⟩)
  | fund :: rest =>
    let res := applyAdvancedFilters rest
    if rejAvailability fund then
      (res.1, { res.2 with availability := res.2.availability + 1 })
    else if rejFundType fund then
      (res.1, { res.2 with fundType := res.2.fundType + 1 })
    else if rejPlanType fund then
      (res.1, { res.2 with planType := res.2.planType + 1 })
    else if rejMaturity fund then
      (res.1, { res.2 with maturity := res.2.maturity + 1 })
    else if rejRating fund then
      (res.1, { res.2 with rating := res.2.rating + 1 })
    else if rejAum fund then
      (res.1, { res.2 with aum := res.2.aum + 1 })
    else if rejIntegrity fund then
      (res.1, { res.2 with dataIntegrity := res.2.dataIntegrity + 1 })
    else if rejIndexFund fund then
      (res.1, { res.2 with indexFund := res.2.indexFund + 1 })
    else
      (fund :: res.1, { res.2 with passed := res.2.passed + 1 })

/-- A fund is eligible exactly when every predicate passes. -/
def isEligible (f : FundDetail) : Bool :=
  !rejAvailability f && !rejFundType f && !rejPlanType f &&
  !rejMaturity f && !rejRating f && !rejAum f &&
  !rejIntegrity f && !rejIndexFund f

/-- The tallies the filter is specified to produce: each fund counted once
under its first failing predicate, or under `passed`. -/
def tallyOf (funds : List FundDetail) : FilterStats where
  availability := funds.countP rejAvailability
  fundType := funds.countP (fun f => !rejAvailability f && rejFundType f)
  planType := funds.countP (fun f =>
    !rejAvailability f && !rejFundType f && rejPlanType f)
  maturity := funds.countP (fun f =>
    !rejAvailability f && !rejFundType f && !rejPlanType f && rejMaturity f)
  rating := funds.countP (fun f =>
    !rejAvailability f && !rejFundType f && !rejPlanType f &&
    !rejMaturity f && rejRating f)
  aum := funds.countP (fun f =>
    !rejAvailability f && !rejFundType f && !rejPlanType f &&
    !rejMaturity f && !rejRating f && rejAum f)
  dataIntegrity := funds.countP (fun f =>
    !rejAvailability f && !rejFundType f && !rejPlanType f &&
    !rejMaturity f && !rejRating f && !rejAum f && rejIntegrity f)
  indexFund := funds.countP (fun f =>
    !rejAvailability f && !rejFundType f && !rejPlanType f &&
    !rejMaturity f && !rejRating f && !rejAum f && !rejIntegrity f &&
    rejIndexFund f)
  passed := funds.countP isEligible

/-- The filter computes the eligible sublist and the first-fail tallies. -/
lemma applyAdvancedFilters_eq (funds : List FundDetail) :
    applyAdvancedFilters funds = (funds.filter isEligible, tallyOf funds) := by
  induction funds with
  | nil => rfl
  | cons fund rest ih =>
    unfold applyAdvancedFilters
    rw [ih]
    by_cases h1 : rejAvailability fund
    · simp [tallyOf, isEligible, h1, List.countP_cons, List.filter]
    · by_cases h2 : rejFundType fund
      · simp [tallyOf, isEligible, h1, h2, List.countP_cons, List.filter]
      · by_cases h3 : rejPlanType fund
        · simp [tallyOf, isEligible, h1, h2, h3, List.countP_cons,
            List.filter]
        · by_cases h4 : rejMaturity fund
          · simp [tallyOf, isEligible, h1, h2, h3, h4, List.countP_cons,
              List.filter]
          · by_cases h5 : rejRating fund
            · simp [tallyOf, isEligible, h1, h2, h3, h4, h5,
                List.countP_cons, List.filter]
            · by_cases h6 : rejAum fund
              · simp [tallyOf, isEligible, h1, h2, h3, h4, h5, h6,
                  List.countP_cons, List.filter]
              · by_cases h7 : rejIntegrity fund
                · simp [tallyOf, isEligible, h1, h2, h3, h4, h5, h6, h7,
                    List.countP_cons, List.filter]
                · by_cases h8 : rejIndexFund fund
                  · simp [tallyOf, isEligible, h1, h2, h3, h4, h5, h6, h7,
                      h8, List.countP_cons, List.filter]
                  · simp [tallyOf, isEligible, h1, h2, h3, h4, h5, h6, h7,
                      h8, List.countP_cons, List.filter]

/-- Every fund is counted in exactly one tally, so the tallies and the
pass count add up to the number of funds processed. -/
lemma tallyOf_total (funds : List FundDetail) :
    (tallyOf funds).availability + (tallyOf funds).fundType +
    (tallyOf funds).planType + (tallyOf funds).maturity +
    (tallyOf funds).rating + (tallyOf funds).aum +
    (tallyOf funds).dataIntegrity + (tallyOf funds).indexFund +
    (tallyOf funds).passed = funds.length := by
  induction funds with
  | nil => rfl
  | cons fund rest ih =>
    simp only [tallyOf, List.countP_cons, List.length_cons] at ih ⊢
    by_cases h1 : rejAvailability fund
    · simp [h1, isEligible]
      omega
    · by_cases h2 : rejFundType fund
      · simp [h1, h2, isEligible]
        omega
      · by_cases h3 : rejPlanType fund
        · simp [h1, h2, h3, isEligible]
          omega
        · by_cases h4 : rejMaturity fund
          · simp [h1, h2, h3, h4, isEligible]
            omega
          · by_cases h5 : rejRating fund
            · simp [h1, h2, h3, h4, h5, isEligible]
              omega
            · by_cases h6 : rejAum fund
              · simp [h1, h2, h3, h4, h5, h6, isEligible]
                omega
              · by_cases h7 : rejIntegrity fund
                · simp [h1, h2, h3, h4, h5, h6, h7, isEligible]
                  omega
                · by_cases h8 : rejIndexFund fund
                  · simp [h1, h2, h3, h4, h5, h6, h7, h8, isEligible]
                    omega
                  · simp [h1, h2, h3, h4, h5, h6, h7, h8, isEligible]
                    omega

/-- C10. The Eligibility Filter keeps exactly the funds for which every
predicate passes (in input order), tallies each rejected fund under its
first failing predicate, counts each passed fund once, and processes the
whole input: the tallies and the pass count sum to the input length. -/
theorem applyAdvancedFilters_spec (funds : List FundDetail) :
    (applyAdvancedFilters funds).1 = funds.filter isEligible ∧
    (∀ f : FundDetail, f ∈ (applyAdvancedFilters funds).1 ↔
      f ∈ funds ∧ isEligible f = true) ∧
    (applyAdvancedFilters funds).2 = tallyOf funds ∧
    (tallyOf funds).availability + (tallyOf funds).fundType +
      (tallyOf funds).planType + (tallyOf funds).maturity +
      (tallyOf funds).rating + (tallyOf funds).aum +
      (tallyOf funds).dataIntegrity + (tallyOf funds).indexFund +
      (tallyOf funds).passed = funds.length := by
  refine ⟨?_, ?_, ?_, tallyOf_total funds⟩
  · rw [applyAdvancedFilters_eq]
  · intro f
    rw [applyAdvancedFilters_eq]
    exact List.mem_filter
  · rw [applyAdvancedFilters_eq]

end MFCompass
